import Mathlib

/- Shallow embedding of the hstg streaming histogram (hstg.go).

   Machine integers: Go `uint` is modelled as `Nat`, with an explicit
   `% uintW` (`uintW = 2 ^ 64`) at every operation that can wrap
   (additions of frequencies and counters, the multiplication in the
   linear decode).  Pointers: the singly linked bin chain is a Lean
   list; the `curr` cursor of a bin list is represented by the key of
   the bin it points at (justified by the proved invariant that the
   cursor is always a member of the chain); the cursor of an iterator
   is the suffix of the chain starting at the current bin.  A Go
   runtime abort (nil dereference, explicit defensive abort) is
   modelled as `Option.none`.  Fallible constructors return `Except`.
   float64 quantities produced by `PRank` are modelled as exact
   rationals extended with the IEEE special values NaN and +Inf. -/

/-- Number of values of the 64-bit Go `uint` type; unsigned arithmetic wraps modulo this. -/
def uintW : Nat := 2 ^ 64

/-- The two implementations of the Go `binCodec` interface, as a closed sum:
`defaultCodec{binWidth}` and `expCodec{logBase}`. -/
inductive binCodec where
  | default (binWidth : Nat) : binCodec
  | exp (logBase : Nat) : binCodec
deriving DecidableEq

/-- Floor of the base-`b` logarithm of `m` (0 when `m = 0`): the largest `k`
with `b ^ k ≤ m`, computed as the number of such exponents in `0..m` minus one.
Used to model the float computation of `expCodec.encode` by its exact
real value, on which the float64 computation agrees for the inputs considered here. -/
def floorLog (b m : Nat) : Nat :=
  ((List.range (m + 1)).filter (fun k => b ^ k ≤ m)).length - 1

/-- `encode`: the linear codec computes `value / binWidth` (integer division);
the exponential codec computes `uint(Log1p(value) / Log(logBase))`, i.e. the
floor of `log_logBase (value + 1)`. -/
def binCodec.encode : binCodec → Nat → Nat
  | .default w, value => value / w
  | .exp b, value => floorLog b (value + 1)

/-- `decode`: the linear codec computes `binValue * binWidth` (uint multiply,
wrapping); the exponential codec computes `uint(Pow(logBase, binValue))`,
exact for the in-range arguments considered here. -/
def binCodec.decode : binCodec → Nat → Nat
  | .default w, k => k * w % uintW
  | .exp b, k => b ^ k

/-- A histogram bin: bin key `value` and accumulated `freq`.  The Go `next`
pointer is represented by list position in the owning chain. -/
structure hBin where
  value : Nat
  freq : Nat
deriving DecidableEq

/-- `hBin.update`: `b.freq += freq` (uint addition, wrapping). -/
def hBin.update (b : hBin) (freq : Nat) : hBin :=
  ⟨b.value, (b.freq + freq) % uintW⟩

/-- The ordered bin collection.  `chain` is the linked chain from `head`;
`curr` holds the key of the bin the amortization cursor points at
(`none` for a nil cursor). -/
structure hBinList where
  length : Nat
  totalFreq : Nat
  chain : List hBin
  curr : Option Nat
deriving DecidableEq

/-- `newBinList` returns the zero value: empty chain, nil cursor, zero counters. -/
def newBinList : hBinList := ⟨0, 0, [], none⟩

/-- `hBinList.binFor`: scan from the given start, return the chain with the
bin for `value` found or spliced in, together with whether a new bin was
created (the Go code increments `length` at its two creation sites; the flag
threads that increment back to the caller).  The bin for `value` is the first
bin of the resulting chain whose key is `value`. -/
def binFor : List hBin → Nat → List hBin × Bool
  | [], value => ([⟨value, 0⟩], true)
  | b :: rest, value =>
    if b.value = value then (b :: rest, false)
    else if b.value < value then
      let p := binFor rest value
      (b :: p.1, p.2)
    else (⟨value, 0⟩ :: b :: rest, true)

/-- Applying `bin.update(freq)` to the bin returned by `binFor`: the first
bin in the chain carrying the given key. -/
def bumpFirst : List hBin → Nat → Nat → List hBin
  | [], _, _ => []
  | b :: rest, value, freq =>
    if b.value = value then b.update freq :: rest
    else b :: bumpFirst rest value freq

/-- `hBinList.update(value, freq)`: the defensive abort on a non-nil cursor
over an empty chain is `none`; otherwise the three Go branches: nil cursor
(search from head), `value < curr.value` (search from head), and
`value ≥ curr.value` (resume the search from the cursor, i.e. from the
chain suffix that starts at the cursor's bin). -/
def hBinList.update (l : hBinList) (value freq : Nat) : Option hBinList :=
  if l.chain.isEmpty && l.curr.isSome then none
  else
    match l.curr with
    | none =>
      let p := binFor l.chain value
      some ⟨if p.2 then (l.length + 1) % uintW else l.length,
            (l.totalFreq + freq) % uintW,
            bumpFirst p.1 value freq,
            some value⟩
    | some c =>
      if value < c then
        let p := binFor l.chain value
        some ⟨if p.2 then (l.length + 1) % uintW else l.length,
              (l.totalFreq + freq) % uintW,
              bumpFirst p.1 value freq,
              some value⟩
      else
        let pre := l.chain.takeWhile (fun b => b.value != c)
        let suf := l.chain.dropWhile (fun b => b.value != c)
        let p := binFor suf value
        some ⟨if p.2 then (l.length + 1) % uintW else l.length,
              (l.totalFreq + freq) % uintW,
              pre ++ bumpFirst p.1 value freq,
              some value⟩

/-- `first()` returns the head bin (`none` for nil). -/
def hBinList.first (l : hBinList) : Option hBin := l.chain.head?

/-- The scan of `last()`: follow `next` until the tail bin. -/
def lastBin : List hBin → Option hBin
  | [] => none
  | [b] => some b
  | _ :: b :: rest => lastBin (b :: rest)

/-- `last()` returns the tail bin via a full scan. -/
def hBinList.last (l : hBinList) : Option hBin := lastBin l.chain

/-- Float64 values produced by `PRank`: exact rationals plus the IEEE
special values NaN (from `0.0/0.0`) and +Inf (from `x/0.0`, `x > 0`). -/
inductive FVal where
  | nan : FVal
  | inf : FVal
  | fin : ℚ → FVal
deriving DecidableEq

/-- `float64(cum) / float64(total) * 100.0` under IEEE semantics for
nonnegative integer operands: division by zero yields NaN (0/0) or +Inf;
otherwise the exact rational value. -/
def pRankVal (cum total : Nat) : FVal :=
  if total = 0 then (if cum = 0 then FVal.nan else FVal.inf)
  else FVal.fin ((cum : ℚ) / (total : ℚ) * 100)

/-- IEEE `x > q` for a float64 `x` and finite `q`: NaN compares false,
+Inf compares true. -/
def FVal.gtQ : FVal → ℚ → Bool
  | .nan, _ => false
  | .inf, _ => true
  | .fin r, q => decide (q < r)

/-- Iterator over a bin list: `totalFreq` reads the owning list's total,
`curr` is the chain suffix starting at the current bin. -/
structure BinIter where
  totalFreq : Nat
  curr : List hBin
  cumFreq : Nat
  codec : binCodec

/-- `newIter`: positioned at the head with cumulative frequency 0. -/
def newIter (l : hBinList) (codec : binCodec) : BinIter :=
  ⟨l.totalFreq, l.chain, 0, codec⟩

/-- `bin()` returns the current bin pointer (possibly nil). -/
def BinIter.bin (i : BinIter) : Option hBin := i.curr.head?

/-- `Done()`: the current position has advanced past the tail. -/
def BinIter.Done (i : BinIter) : Bool := i.curr.isEmpty

/-- `Next()` dereferences `i.curr` to read its frequency: on a nil current
bin the Go code aborts with a nil dereference (`none`); otherwise it adds the
frequency to the cumulative total (uint addition) and advances. -/
def BinIter.Next (i : BinIter) : Option BinIter :=
  match i.curr with
  | [] => none
  | b :: rest => some ⟨i.totalFreq, rest, (i.cumFreq + b.freq) % uintW, i.codec⟩

/-- `Freq()` dereferences `i.curr` (`none` models the nil-dereference abort). -/
def BinIter.Freq (i : BinIter) : Option Nat := i.curr.head?.map hBin.freq

/-- `PRank()` reads only `cumFreq` and the owning list's `totalFreq`; it never
dereferences `i.curr`, so it is total and always returns a value. -/
def BinIter.PRank (i : BinIter) : Option FVal := some (pRankVal i.cumFreq i.totalFreq)

/-- `Percentile()` decodes the current bin's key, dereferencing `i.curr`
(`none` models the nil-dereference abort). -/
def BinIter.Percentile (i : BinIter) : Option Nat :=
  i.curr.head?.map (fun b => i.codec.decode b.value)

/-- `iter`: a fresh iterator over the list. -/
def hBinList.iter (l : hBinList) (codec : binCodec) : BinIter := newIter l codec

/-- The histogram facade: one codec and one bin list. -/
structure Hstg where
  codec : binCodec
  binList : hBinList

/-- `New(binWidth)`: linear histogram; fails when `binWidth == 0`. -/
def New (binWidth : Nat) : Except Unit Hstg :=
  if binWidth = 0 then Except.error ()
  else Except.ok ⟨binCodec.default binWidth, newBinList⟩

/-- `NewExp(logBase)`: logarithmic histogram; fails when `logBase < 2`. -/
def NewExp (logBase : Nat) : Except Unit Hstg :=
  if logBase < 2 then Except.error ()
  else Except.ok ⟨binCodec.exp logBase, newBinList⟩

/-- `BinCount()`. -/
def Hstg.BinCount (h : Hstg) : Nat := h.binList.length

/-- `TotalFreq()`. -/
def Hstg.TotalFreq (h : Hstg) : Nat := h.binList.totalFreq

/-- `Update(value)`: encode and update the bin list with frequency 1. -/
def Hstg.Update (h : Hstg) (value : Nat) : Option Hstg :=
  (h.binList.update (h.codec.encode value) 1).map (fun l => ⟨h.codec, l⟩)

/-- The scan loop of `Percentile` over iterator state: remaining chain and
cumulative frequency, keeping the candidate bin from before the break.
`bin` enters as `i.bin()` (the head); each round first tests
`i.PRank() > prank` (IEEE comparison) and breaks keeping the candidate,
otherwise records the current bin and advances. -/
def percScan (total : Nat) (prank : ℚ) : List hBin → Nat → Option hBin → Option hBin
  | [], _, bin => bin
  | b :: rest, cum, bin =>
    if (pRankVal cum total).gtQ prank then bin
    else percScan total prank rest ((cum + b.freq) % uintW) (some b)

/-- Bin selection of `Percentile` for an in-range rank on a non-empty
histogram: first bin at rank 0, last bin at rank 100, otherwise the scan. -/
def percBin (l : hBinList) (prank : ℚ) : Option hBin :=
  if prank = 0 then l.first
  else if prank = 100 then l.last
  else percScan l.totalFreq prank l.chain 0 l.chain.head?

/-- `Percentile(prank)`: error outside `[0, 100]`; `decode(0)` when the list
holds no bins; otherwise decode the selected bin's key.  `none` models the
(unreachable on valid states) nil dereference of the selected bin. -/
def Hstg.Percentile (h : Hstg) (prank : ℚ) : Option (Except Unit Nat) :=
  if prank < 0 ∨ prank > 100 then some (Except.error ())
  else if h.binList.length = 0 then some (Except.ok (h.codec.decode 0))
  else (percBin h.binList prank).map (fun b => Except.ok (h.codec.decode b.value))

/-- `Iter()`: a fresh iterator at the head. -/
def Hstg.Iter (h : Hstg) : BinIter := newIter h.binList h.codec

/-- Run a sequence of `update(key, f)` calls on a fresh bin list. -/
def runUpdates (ops : List (Nat × Nat)) : Option hBinList :=
  ops.foldl (fun ol op => ol.bind (fun l => l.update op.1 op.2)) (some newBinList)

/-- Observation trace of an iterator: at each position the cumulative
frequency, `Percentile()`, `PRank()` and `Done()`, then advance, for at
most the given number of positions. -/
def iterTrace : Nat → BinIter → List (Nat × Option Nat × Option FVal × Bool)
  | 0, _ => []
  | n + 1, i =>
    (i.cumFreq, i.Percentile, i.PRank, i.Done) ::
      (match i.Next with
       | none => []
       | some j => iterTrace n j)

/-- The key sequence of a chain. -/
def chainKeys (l : List hBin) : List Nat := l.map hBin.value

/-- The cursor is nil or a member of the chain. -/
def cursorOK (l : hBinList) : Prop := ∀ c, l.curr = some c → c ∈ chainKeys l.chain

/-- Well-formed bin list states: strictly ascending chain, valid cursor,
`length` consistent with the chain, `totalFreq` a machine value. -/
def WF (l : hBinList) : Prop :=
  List.Pairwise (· < ·) (chainKeys l.chain) ∧ cursorOK l ∧
    l.length = l.chain.length % uintW ∧ l.totalFreq < uintW

/-- Concrete bin chain produced by `update(i, i*i)` for `i = 1..5`. -/
def binsC9 : List hBin := [⟨1, 1⟩, ⟨2, 4⟩, ⟨3, 9⟩, ⟨4, 16⟩, ⟨5, 25⟩]

/-- The bin list state after `update(i, i*i)` for `i = 1..5`. -/
def listC9 : hBinList := ⟨5, 55, binsC9, some 5⟩

/-- Keys of a cons chain. -/
theorem chainKeys_cons (b : hBin) (rest : List hBin) :
    chainKeys (b :: rest) = b.value :: chainKeys rest := rfl

/-- Keys of an appended chain. -/
theorem chainKeys_append (l1 l2 : List hBin) :
    chainKeys (l1 ++ l2) = chainKeys l1 ++ chainKeys l2 := List.map_append _ _ _

/-- `bumpFirst` only changes a frequency: the key sequence is unchanged. -/
theorem bumpFirst_keys (l : List hBin) (v f : Nat) :
    chainKeys (bumpFirst l v f) = chainKeys l := by
  induction l with
  | nil => rfl
  | cons b rest ih =>
    by_cases hb : b.value = v
    · simp [bumpFirst, hb, chainKeys, hBin.update]
    · simp only [bumpFirst, if_neg hb, chainKeys_cons, ih]

/-- `bumpFirst` preserves the chain length. -/
theorem bumpFirst_length (l : List hBin) (v f : Nat) :
    (bumpFirst l v f).length = l.length := by
  induction l with
  | nil => rfl
  | cons b rest ih =>
    by_cases hb : b.value = v
    · simp [bumpFirst, hb]
    · simp [bumpFirst, hb, ih]

/-- `binFor` branch equation: key found at the head. -/
theorem binFor_found (b : hBin) (rest : List hBin) (v : Nat) (h : b.value = v) :
    binFor (b :: rest) v = (b :: rest, false) := by
  simp [binFor, h]

/-- `binFor` branch equation: head key below the target, scan continues. -/
theorem binFor_lt (b : hBin) (rest : List hBin) (v : Nat) (h : b.value < v) :
    binFor (b :: rest) v = (b :: (binFor rest v).1, (binFor rest v).2) := by
  have h1 : b.value ≠ v := Nat.ne_of_lt h
  simp [binFor, h1, h]

/-- `binFor` branch equation: head key above the target, splice before it. -/
theorem binFor_gt (b : hBin) (rest : List hBin) (v : Nat) (h : v < b.value) :
    binFor (b :: rest) v = (⟨v, 0⟩ :: b :: rest, true) := by
  have h1 : b.value ≠ v := Nat.ne_of_gt h
  have h2 : ¬ b.value < v := by omega
  simp [binFor, h1, h2]

/-- On a strictly ascending chain, `binFor` keeps the chain strictly
ascending, adds exactly the target key to the key set, creates a bin exactly
when the key was absent, and grows the length accordingly. -/
theorem binFor_spec (chain : List hBin) (v : Nat)
    (hs : List.Pairwise (· < ·) (chainKeys chain)) :
    List.Pairwise (· < ·) (chainKeys (binFor chain v).1) ∧
    (∀ k, k ∈ chainKeys (binFor chain v).1 ↔ k ∈ chainKeys chain ∨ k = v) ∧
    ((binFor chain v).2 = true ↔ v ∉ chainKeys chain) ∧
    (binFor chain v).1.length = chain.length + (if v ∈ chainKeys chain then 0 else 1) := by
  induction chain with
  | nil => simp [binFor, chainKeys]
  | cons b rest ih =>
    rw [chainKeys_cons, List.pairwise_cons] at hs
    obtain ⟨hb, hrest⟩ := hs
    rcases Nat.lt_trichotomy b.value v with h2 | h1 | h3
    · obtain ⟨ih1, ih2, ih3, ih4⟩ := ih hrest
      rw [binFor_lt b rest v h2]
      have hvne : v ≠ b.value := Nat.ne_of_gt h2
      refine ⟨?_, ?_, ?_, ?_⟩
      · rw [chainKeys_cons, List.pairwise_cons]
        refine ⟨fun a ha => ?_, ih1⟩
        rcases (ih2 a).mp ha with h | h
        · exact hb a h
        · exact h ▸ h2
      · intro k
        rw [chainKeys_cons, List.mem_cons, chainKeys_cons, List.mem_cons, ih2 k]
        tauto
      · rw [ih3, chainKeys_cons, List.mem_cons]
        constructor
        · intro h hm
          rcases hm with hm | hm
          · exact hvne hm
          · exact h hm
        · intro h hm
          exact h (Or.inr hm)
      · rw [List.length_cons, ih4, chainKeys_cons, List.length_cons]
        by_cases hm : v ∈ chainKeys rest
        · rw [if_pos hm, if_pos (List.mem_cons.mpr (Or.inr hm))]
        · rw [if_neg hm, if_neg (by simp [List.mem_cons, hvne, hm])]
    · rw [binFor_found b rest v h1]
      have hmem : v ∈ chainKeys (b :: rest) := by
        rw [chainKeys_cons, List.mem_cons]
        exact Or.inl h1.symm
      refine ⟨?_, ?_, ?_, ?_⟩
      · rw [chainKeys_cons, List.pairwise_cons]
        exact ⟨hb, hrest⟩
      · intro k
        constructor
        · exact Or.inl
        · rintro (h | h)
          · exact h
          · exact h ▸ hmem
      · simp [hmem]
      · simp [hmem]
    · rw [binFor_gt b rest v h3]
      have hvnotin : v ∉ chainKeys (b :: rest) := by
        rw [chainKeys_cons, List.mem_cons]
        rintro (h | h)
        · omega
        · exact absurd (hb v h) (by omega)
      refine ⟨?_, ?_, ?_, ?_⟩
      · rw [chainKeys_cons, List.pairwise_cons]
        refine ⟨fun a ha => ?_, ?_⟩
        · rw [chainKeys_cons, List.mem_cons] at ha
          rcases ha with h | h
          · exact h ▸ h3
          · exact lt_trans h3 (hb a h)
        · rw [chainKeys_cons, List.pairwise_cons]
          exact ⟨hb, hrest⟩
      · intro k
        simp only [chainKeys_cons, List.mem_cons]
        tauto
      · simp [hvnotin]
      · simp only [if_neg hvnotin, List.length_cons]

/-- If `c` is a key of the chain, the suffix from the cursor starts at the
bin carrying `c`. -/
theorem dropWhile_key (chain : List hBin) (c : Nat) (hc : c ∈ chainKeys chain) :
    ∃ b rest, chain.dropWhile (fun x => x.value != c) = b :: rest ∧ b.value = c := by
  induction chain with
  | nil => simp [chainKeys] at hc
  | cons b rest ih =>
    by_cases hb : b.value = c
    · refine ⟨b, rest, ?_, hb⟩
      simp [List.dropWhile, hb]
    · have hcr : c ∈ chainKeys rest := by
        rw [chainKeys_cons, List.mem_cons] at hc
        rcases hc with h | h
        · exact absurd h.symm hb
        · exact h
      obtain ⟨b2, r2, h1, h2⟩ := ih hcr
      refine ⟨b2, r2, ?_, h2⟩
      have hbt : (b.value != c) = true := by simp [hb]
      simp [List.dropWhile, hbt, h1]

/-- On a strictly ascending chain, every key before the cursor's bin is
below the cursor key. -/
theorem takeWhile_key_lt (chain : List hBin) (c : Nat)
    (hs : List.Pairwise (· < ·) (chainKeys chain)) (hc : c ∈ chainKeys chain) :
    ∀ k ∈ chainKeys (chain.takeWhile (fun x => x.value != c)), k < c := by
  have hsplit : chain.takeWhile (fun x => x.value != c) ++
      chain.dropWhile (fun x => x.value != c) = chain :=
    List.takeWhile_append_dropWhile (fun x => x.value != c) chain
  obtain ⟨b, rest, hd, hbv⟩ := dropWhile_key chain c hc
  intro k hk
  have hpw : List.Pairwise (· < ·)
      (chainKeys (chain.takeWhile (fun x => x.value != c)) ++
       chainKeys (chain.dropWhile (fun x => x.value != c))) := by
    rw [← chainKeys_append, hsplit]
    exact hs
  have hcross := (List.pairwise_append.mp hpw).2.2
  have hcmem : c ∈ chainKeys (chain.dropWhile (fun x => x.value != c)) := by
    rw [hd, chainKeys_cons, List.mem_cons]
    exact Or.inl hbv.symm
  exact hcross k hk c hcmem

/-- `uintW` is positive. -/
theorem uintW_pos : 0 < uintW := by norm_num [uintW]

/-- Common content of the two search-from-head branches of `update`: the
resulting record is well-formed and its chain relates to the input chain as
the claims require. -/
theorem headInsert_spec (chain : List hBin) (len tot v f : Nat)
    (hsort : List.Pairwise (· < ·) (chainKeys chain))
    (hlen : len = chain.length % uintW) :
    WF ⟨if (binFor chain v).2 then (len + 1) % uintW else len,
        (tot + f) % uintW, bumpFirst (binFor chain v).1 v f, some v⟩ ∧
    (∀ k, k ∈ chainKeys (bumpFirst (binFor chain v).1 v f) ↔ k ∈ chainKeys chain ∨ k = v) ∧
    (bumpFirst (binFor chain v).1 v f).length =
      chain.length + (if v ∈ chainKeys chain then 0 else 1) := by
  obtain ⟨h1, h2, h3, h4⟩ := binFor_spec chain v hsort
  refine ⟨⟨?_, ?_, ?_, ?_⟩, ?_, ?_⟩
  · show List.Pairwise (· < ·) (chainKeys (bumpFirst (binFor chain v).1 v f))
    rw [bumpFirst_keys]
    exact h1
  · intro c hc
    obtain rfl : v = c := by simpa using hc
    show v ∈ chainKeys (bumpFirst (binFor chain v).1 v f)
    rw [bumpFirst_keys]
    exact (h2 v).mpr (Or.inr rfl)
  · show (if (binFor chain v).2 then (len + 1) % uintW else len) =
      (bumpFirst (binFor chain v).1 v f).length % uintW
    rw [bumpFirst_length, h4]
    by_cases hm : v ∈ chainKeys chain
    · have hb : (binFor chain v).2 = false := by
        rcases hbv : (binFor chain v).2 with _ | _
        · rfl
        · exact absurd (h3.mp hbv) (fun h => h hm)
      rw [hb, if_pos hm]
      simp [hlen]
    · have hb : (binFor chain v).2 = true := h3.mpr hm
      rw [hb, if_neg hm, hlen]
      simp [Nat.mod_add_mod]
  · exact Nat.mod_lt _ uintW_pos
  · intro k
    rw [bumpFirst_keys]
    exact h2 k
  · rw [bumpFirst_length]
    exact h4

/-- Content of the resume-from-cursor branch of `update`: splitting the chain
at the cursor's bin, searching the suffix and recombining is again
well-formed, and affects keys and length exactly as a search from the head
would (the cursor key is at most the target key here). -/
theorem cursorInsert_spec (chain : List hBin) (len c v f : Nat)
    (hsort : List.Pairwise (· < ·) (chainKeys chain))
    (hc : c ∈ chainKeys chain) (hcv : c ≤ v)
    (hlen : len = chain.length % uintW) :
    ∀ tot,
    WF ⟨if (binFor (chain.dropWhile (fun x => x.value != c)) v).2 then (len + 1) % uintW else len,
        (tot + f) % uintW,
        chain.takeWhile (fun x => x.value != c) ++
          bumpFirst (binFor (chain.dropWhile (fun x => x.value != c)) v).1 v f, some v⟩ ∧
    (∀ k, k ∈ chainKeys (chain.takeWhile (fun x => x.value != c) ++
          bumpFirst (binFor (chain.dropWhile (fun x => x.value != c)) v).1 v f) ↔
        k ∈ chainKeys chain ∨ k = v) ∧
    (chain.takeWhile (fun x => x.value != c) ++
        bumpFirst (binFor (chain.dropWhile (fun x => x.value != c)) v).1 v f).length =
      chain.length + (if v ∈ chainKeys chain then 0 else 1) := by
  intro tot
  set pre := chain.takeWhile (fun x => x.value != c) with hpre
  set suf := chain.dropWhile (fun x => x.value != c) with hsuf
  have hsplit : pre ++ suf = chain :=
    List.takeWhile_append_dropWhile (fun x => x.value != c) chain
  have hpw : List.Pairwise (· < ·) (chainKeys pre ++ chainKeys suf) := by
    rw [← chainKeys_append, hsplit]
    exact hsort
  have hpre_sorted := (List.pairwise_append.mp hpw).1
  have hsuf_sorted := (List.pairwise_append.mp hpw).2.1
  have hcross := (List.pairwise_append.mp hpw).2.2
  have hprelt : ∀ k ∈ chainKeys pre, k < c := takeWhile_key_lt chain c hsort hc
  have hkeys_chain : ∀ k, k ∈ chainKeys chain ↔ k ∈ chainKeys pre ∨ k ∈ chainKeys suf := by
    intro k
    rw [← hsplit, chainKeys_append, List.mem_append]
  have hvpre : v ∉ chainKeys pre := fun h => absurd (hprelt v h) (by omega)
  have hvmem : v ∈ chainKeys suf ↔ v ∈ chainKeys chain := by
    rw [hkeys_chain v]
    exact ⟨Or.inr, fun h => h.resolve_left hvpre⟩
  obtain ⟨h1, h2, h3, h4⟩ := binFor_spec suf v hsuf_sorted
  have hmem2 : ∀ k, k ∈ chainKeys (pre ++ bumpFirst (binFor suf v).1 v f) ↔
      k ∈ chainKeys chain ∨ k = v := by
    intro k
    rw [chainKeys_append, List.mem_append, bumpFirst_keys, h2 k, hkeys_chain k]
    tauto
  have hchlen : chain.length = pre.length + suf.length := by
    rw [← hsplit, List.length_append]
  have hlen2 : (pre ++ bumpFirst (binFor suf v).1 v f).length =
      chain.length + (if v ∈ chainKeys chain then 0 else 1) := by
    rw [List.length_append, bumpFirst_length, h4, hchlen]
    by_cases hm : v ∈ chainKeys suf
    · rw [if_pos hm, if_pos (hvmem.mp hm)]
      omega
    · rw [if_neg hm, if_neg (fun h => hm (hvmem.mpr h))]
      omega
  refine ⟨⟨?_, ?_, ?_, ?_⟩, hmem2, hlen2⟩
  · show List.Pairwise (· < ·) (chainKeys (pre ++ bumpFirst (binFor suf v).1 v f))
    rw [chainKeys_append, bumpFirst_keys]
    rw [List.pairwise_append]
    refine ⟨hpre_sorted, h1, fun x hx y hy => ?_⟩
    rcases (h2 y).mp hy with h | h
    · exact hcross x hx y h
    · subst h
      exact lt_of_lt_of_le (hprelt x hx) hcv
  · intro k hk
    obtain rfl : v = k := by simpa using hk
    show v ∈ chainKeys (pre ++ bumpFirst (binFor suf v).1 v f)
    exact (hmem2 v).mpr (Or.inr rfl)
  · show (if (binFor suf v).2 then (len + 1) % uintW else len) =
      (pre ++ bumpFirst (binFor suf v).1 v f).length % uintW
    rw [hlen2]
    by_cases hm : v ∈ chainKeys chain
    · have hb : (binFor suf v).2 = false := by
        rcases hbv : (binFor suf v).2 with _ | _
        · rfl
        · exact absurd (h3.mp hbv) (fun h => h (hvmem.mpr hm))
      rw [hb, if_pos hm]
      simp [hlen]
    · have hb : (binFor suf v).2 = true := h3.mpr (fun h => hm (hvmem.mp h))
      rw [hb, if_neg hm, hlen]
      simp [Nat.mod_add_mod]
  · exact Nat.mod_lt _ uintW_pos

/-- `update` on a well-formed bin list never hits a defensive abort, keeps
the state well-formed, leaves the cursor on the touched key, adds exactly
the target key to the key set, grows the chain exactly when the key was new,
and adds the frequency to the total (uint addition). -/
theorem update_spec (l : hBinList) (hWF : WF l) (v f : Nat) :
    ∃ l2, l.update v f = some l2 ∧ WF l2 ∧ l2.curr = some v ∧
      (∀ k, k ∈ chainKeys l2.chain ↔ k ∈ chainKeys l.chain ∨ k = v) ∧
      l2.chain.length = l.chain.length + (if v ∈ chainKeys l.chain then 0 else 1) ∧
      l2.totalFreq = (l.totalFreq + f) % uintW := by
  obtain ⟨hsort, hcur, hlen, htot⟩ := hWF
  cases hcu : l.curr with
  | none =>
    refine ⟨⟨if (binFor l.chain v).2 then (l.length + 1) % uintW else l.length,
             (l.totalFreq + f) % uintW,
             bumpFirst (binFor l.chain v).1 v f, some v⟩, ?_, ?_, rfl, ?_, ?_, rfl⟩
    · simp [hBinList.update, hcu]
    · exact (headInsert_spec l.chain l.length l.totalFreq v f hsort hlen).1
    · exact (headInsert_spec l.chain l.length l.totalFreq v f hsort hlen).2.1
    · exact (headInsert_spec l.chain l.length l.totalFreq v f hsort hlen).2.2
  | some c =>
    have hcmem : c ∈ chainKeys l.chain := hcur c hcu
    have hne : l.chain.isEmpty = false := by
      cases hch : l.chain with
      | nil =>
        rw [hch] at hcmem
        simp [chainKeys] at hcmem
      | cons b rest => simp
    by_cases hvc : v < c
    · refine ⟨⟨if (binFor l.chain v).2 then (l.length + 1) % uintW else l.length,
               (l.totalFreq + f) % uintW,
               bumpFirst (binFor l.chain v).1 v f, some v⟩, ?_, ?_, rfl, ?_, ?_, rfl⟩
      · simp [hBinList.update, hcu, hne, hvc]
      · exact (headInsert_spec l.chain l.length l.totalFreq v f hsort hlen).1
      · exact (headInsert_spec l.chain l.length l.totalFreq v f hsort hlen).2.1
      · exact (headInsert_spec l.chain l.length l.totalFreq v f hsort hlen).2.2
    · have hcv : c ≤ v := by omega
      obtain ⟨hw, hmem, hlen2⟩ :=
        cursorInsert_spec l.chain l.length c v f hsort hcmem hcv hlen l.totalFreq
      refine ⟨⟨if (binFor (l.chain.dropWhile (fun x => x.value != c)) v).2 then
                 (l.length + 1) % uintW else l.length,
               (l.totalFreq + f) % uintW,
               l.chain.takeWhile (fun x => x.value != c) ++
                 bumpFirst (binFor (l.chain.dropWhile (fun x => x.value != c)) v).1 v f,
               some v⟩, ?_, hw, rfl, hmem, hlen2, rfl⟩
      simp [hBinList.update, hcu, hne, hvc]

/-- The fresh bin list is well-formed. -/
theorem wf_newBinList : WF newBinList := by
  refine ⟨?_, ?_, ?_, ?_⟩ <;> simp [newBinList, cursorOK, chainKeys, uintW]

/-- Folding `update` calls from any well-formed state: no abort, the final
state is well-formed, the total is the uint sum, and the key set is the
union with the keys touched. -/
theorem foldl_update_spec (ops : List (Nat × Nat)) :
    ∀ l : hBinList, WF l →
    ∃ l2, ops.foldl (fun ol op => ol.bind (fun x => x.update op.1 op.2)) (some l) = some l2 ∧
      WF l2 ∧
      l2.totalFreq = (l.totalFreq + (ops.map Prod.snd).sum) % uintW ∧
      (chainKeys l2.chain).toFinset =
        (chainKeys l.chain).toFinset ∪ (ops.map Prod.fst).toFinset := by
  induction ops with
  | nil =>
    intro l hl
    refine ⟨l, rfl, hl, ?_, by simp⟩
    simp [Nat.mod_eq_of_lt hl.2.2.2]
  | cons op rest ih =>
    intro l hl
    obtain ⟨l1, h1, hw1, hcur1, hmem1, hlen1, htot1⟩ := update_spec l hl op.1 op.2
    obtain ⟨l2, h2, hw2, htot2, hkey2⟩ := ih l1 hw1
    refine ⟨l2, ?_, hw2, ?_, ?_⟩
    · rw [List.foldl_cons]
      simp only [Option.some_bind, h1]
      exact h2
    · rw [htot2, htot1, List.map_cons, List.sum_cons, Nat.mod_add_mod, Nat.add_assoc]
    · rw [hkey2, List.map_cons, List.toFinset_cons]
      have hins : (chainKeys l1.chain).toFinset = insert op.1 (chainKeys l.chain).toFinset := by
        ext k
        simp only [List.mem_toFinset, Finset.mem_insert, hmem1 k]
        tauto
      rw [hins]
      ext k
      simp

/-- A non-empty chain has a tail bin. -/
theorem lastBin_cons (b : hBin) (rest : List hBin) : ∃ r, lastBin (b :: rest) = some r := by
  induction rest generalizing b with
  | nil => exact ⟨b, rfl⟩
  | cons b2 rest2 ih => simpa [lastBin] using ih b2

/-- Claim C1 (code evaluation at the divergence): for the logarithmic codec
with base 2 over inputs 0..15, the embedded `encode` produces exactly the
claimed keys, but `decode` of those keys produces `{1,2,2,4,...,16}` (that
is, `logBase ^ key`) and not the claimed `{0,1,1,3,...,15}` (that is,
`logBase ^ key - 1`), which is what the repository's own test table demands:
the code's `expCodec.decode` contradicts the repository's test. -/
theorem C1_expCodec_base2_eval :
    ((List.range 16).map (fun v => (binCodec.exp 2).encode v) =
      [0, 1, 1, 2, 2, 2, 2, 3, 3, 3, 3, 3, 3, 3, 3, 4]) ∧
    ((List.range 16).map (fun v => (binCodec.exp 2).decode ((binCodec.exp 2).encode v)) =
      [1, 2, 2, 4, 4, 4, 4, 8, 8, 8, 8, 8, 8, 8, 8, 16]) ∧
    (List.range 16).map (fun v => (binCodec.exp 2).decode ((binCodec.exp 2).encode v)) ≠
      [0, 1, 1, 3, 3, 3, 3, 7, 7, 7, 7, 7, 7, 7, 7, 15] := by
  refine ⟨by decide, by decide, by decide⟩

/-- Claim C2 (counterexample): an iterator that has reached `done() = true`
(here: after iterating a one-bin list to its end) does not abort in
`pRank()` — it returns the value 100, so not every accessor of the four
aborts after `done()`. -/
theorem C2_counterexample :
    ((newBinList.update 1 1).bind (fun l => (newIter l (binCodec.default 1)).Next)).map
      (fun i => (i.Done, i.PRank)) = some (true, some (FVal.fin 100)) := by
  have h : newBinList.update 1 1 = some ⟨1, 1, [⟨1, 1⟩], some 1⟩ := by decide
  rw [h]
  norm_num [newIter, BinIter.Next, BinIter.Done, BinIter.PRank, pRankVal, uintW]

/-- Claim C2 (amended): for every iterator with `done() = true`, the
accessors `next()`, `freq()` and `percentile()` abort loudly (they
dereference the nil current bin), but `pRank()` does not abort: it reads
only the cumulative and total frequencies and returns a value. -/
theorem C2_done_accessors (i : BinIter) (h : i.Done = true) :
    i.Next = none ∧ i.Freq = none ∧ i.Percentile = none ∧ ∃ r, i.PRank = some r := by
  have hc : i.curr = [] := by
    simpa [BinIter.Done, List.isEmpty_iff] using h
  refine ⟨?_, ?_, ?_, ⟨pRankVal i.cumFreq i.totalFreq, rfl⟩⟩
  · simp [BinIter.Next, hc]
  · simp [BinIter.Freq, hc]
  · simp [BinIter.Percentile, hc]

/-- Witness for C2_done_accessors at a concrete finished iterator. -/
theorem C2_done_accessors_witness :
    BinIter.Next ⟨1, [], 1, binCodec.default 1⟩ = none ∧
    BinIter.Freq ⟨1, [], 1, binCodec.default 1⟩ = none ∧
    BinIter.Percentile ⟨1, [], 1, binCodec.default 1⟩ = none ∧
    ∃ r, BinIter.PRank ⟨1, [], 1, binCodec.default 1⟩ = some r :=
  C2_done_accessors ⟨1, [], 1, binCodec.default 1⟩ (by decide)

/-- Claim C3: `Percentile(rank)` returns the InvalidArgument error exactly
when `rank < 0` or `rank > 100`, and on a histogram holding no bins it
returns `decode(0)` without error for every rank in `[0, 100]`. -/
theorem C3_percentile_range_empty (c : binCodec) (l : hBinList) (q : ℚ) :
    ((Hstg.Percentile ⟨c, l⟩ q = some (Except.error ())) ↔ (q < 0 ∨ q > 100)) ∧
    (l.length = 0 → 0 ≤ q → q ≤ 100 →
      Hstg.Percentile ⟨c, l⟩ q = some (Except.ok (c.decode 0))) := by
  by_cases hq : q < 0 ∨ q > 100
  · refine ⟨⟨fun _ => hq, fun _ => by simp [Hstg.Percentile, hq]⟩, fun h0 h1 h2 => ?_⟩
    exfalso
    rcases hq with h | h
    · linarith
    · linarith
  · refine ⟨⟨fun h => ?_, fun h => absurd h hq⟩, fun h0 h1 h2 => ?_⟩
    · exfalso
      simp only [Hstg.Percentile, if_neg hq] at h
      split_ifs at h with hlen
      · simp at h
      · rcases hpb : percBin l q with _ | b <;> rw [hpb] at h <;> simp at h
    · simp only [Hstg.Percentile, if_neg hq, if_pos h0]

/-- Witness for C3_percentile_range_empty: an empty linear histogram at
rank 50 answers `decode(0) = 0` without error. -/
theorem C3_percentile_range_empty_witness :
    Hstg.Percentile ⟨binCodec.default 1, newBinList⟩ 50 = some (Except.ok 0) :=
  (C3_percentile_range_empty (binCodec.default 1) newBinList 50).2 rfl
    (by norm_num) (by norm_num)

/-- Claim C4 (counterexample): `totalFrequency` is a Go `uint` and wraps:
after `update(0, 2^63)` twice on a fresh list, `totalFrequency` is 0 while
the sum of the `f` arguments is `2^64`, so it does not equal that sum. -/
theorem C4_counterexample :
    (runUpdates [(0, 2 ^ 63), (0, 2 ^ 63)]).map hBinList.totalFreq = some 0 ∧
    ([((0 : Nat), (2 : Nat) ^ 63), (0, 2 ^ 63)].map Prod.snd).sum = 2 ^ 64 ∧
    (0 : Nat) ≠ 2 ^ 64 := by
  refine ⟨by decide, by norm_num, by norm_num⟩

/-- Claim C4 (amended): after any finite sequence of `update(key, f)` calls
on a fresh bin list, no call aborts, `totalFrequency` equals the sum of the
`f` arguments reduced modulo `2^64` (uint wraparound), and `length` equals
the number of distinct keys passed, reduced modulo `2^64`. -/
theorem C4_totals_modular (ops : List (Nat × Nat)) :
    ∃ l, runUpdates ops = some l ∧
      l.totalFreq = (ops.map Prod.snd).sum % uintW ∧
      l.length = (ops.map Prod.fst).toFinset.card % uintW := by
  obtain ⟨l, h1, hw, htot, hkey⟩ := foldl_update_spec ops newBinList wf_newBinList
  refine ⟨l, h1, ?_, ?_⟩
  · simpa [newBinList] using htot
  · have hnd : (chainKeys l.chain).Nodup := hw.1.imp (fun h => ne_of_lt h)
    have hcard : (chainKeys l.chain).toFinset.card = (chainKeys l.chain).length :=
      List.toFinset_card_of_nodup hnd
    have hchl : l.chain.length = (chainKeys l.chain).length := by
      simp [chainKeys]
    rw [hw.2.2.1, hchl, ← hcard, hkey]
    simp [newBinList, chainKeys]

/-- Claim C5: on a histogram holding at least one bin, `Percentile(0)`
answers the decoded key of the first bin and `Percentile(100)` the decoded
key of the last bin. -/
theorem C5_percentile_first_last (c : binCodec) (l : hBinList)
    (h1 : l.length ≠ 0) (h2 : l.chain ≠ []) :
    (∃ b, l.first = some b ∧
      Hstg.Percentile ⟨c, l⟩ 0 = some (Except.ok (c.decode b.value))) ∧
    (∃ b, l.last = some b ∧
      Hstg.Percentile ⟨c, l⟩ 100 = some (Except.ok (c.decode b.value))) := by
  have hr0 : ¬((0 : ℚ) < 0 ∨ (0 : ℚ) > 100) := by norm_num
  have hr100 : ¬((100 : ℚ) < 0 ∨ (100 : ℚ) > 100) := by norm_num
  constructor
  · rcases hc : l.chain with _ | ⟨b0, rest⟩
    · exact absurd hc h2
    · refine ⟨b0, ?_, ?_⟩
      · simp [hBinList.first, hc]
      · simp only [Hstg.Percentile, if_neg hr0, if_neg h1, percBin, if_pos rfl]
        simp [hBinList.first, hc]
  · obtain ⟨r, hr⟩ : ∃ r, l.last = some r := by
      rcases hc : l.chain with _ | ⟨b0, rest⟩
      · exact absurd hc h2
      · simpa [hBinList.last, hc] using lastBin_cons b0 rest
    refine ⟨r, hr, ?_⟩
    have h100 : ((100 : ℚ) = 0) = False := by norm_num
    simp only [Hstg.Percentile, if_neg hr0, if_neg h1, percBin, h100, if_false,
      if_pos rfl, hr]
    simp

/-- Witness for C5_percentile_first_last at a one-bin histogram. -/
theorem C5_percentile_first_last_witness :
    (∃ b, hBinList.first ⟨1, 2, [⟨3, 2⟩], some 3⟩ = some b ∧
      Hstg.Percentile ⟨binCodec.default 2, ⟨1, 2, [⟨3, 2⟩], some 3⟩⟩ 0 =
        some (Except.ok ((binCodec.default 2).decode b.value))) ∧
    (∃ b, hBinList.last ⟨1, 2, [⟨3, 2⟩], some 3⟩ = some b ∧
      Hstg.Percentile ⟨binCodec.default 2, ⟨1, 2, [⟨3, 2⟩], some 3⟩⟩ 100 =
        some (Except.ok ((binCodec.default 2).decode b.value))) :=
  C5_percentile_first_last (binCodec.default 2) ⟨1, 2, [⟨3, 2⟩], some 3⟩
    (by norm_num) (by simp)

/-- Claim C6: for the linear codec with positive width and any machine
value, the decoded bin of a value is at most the value, and the value lies
strictly below the next bin boundary. -/
theorem C6_linear_roundtrip (w v : Nat) (hw : 0 < w) (hv : v < uintW) :
    (binCodec.default w).decode ((binCodec.default w).encode v) ≤ v ∧
    v < (binCodec.default w).decode ((binCodec.default w).encode v) + w := by
  have hdl : v / w * w ≤ v := Nat.div_mul_le_self v w
  have hmod : v / w * w % uintW = v / w * w := Nat.mod_eq_of_lt (lt_of_le_of_lt hdl hv)
  constructor
  · show v / w * w % uintW ≤ v
    rw [hmod]
    exact hdl
  · show v < v / w * w % uintW + w
    rw [hmod]
    calc v = w * (v / w) + v % w := (Nat.div_add_mod v w).symm
    _ < w * (v / w) + w := Nat.add_lt_add_left (Nat.mod_lt v hw) _
    _ = v / w * w + w := by rw [Nat.mul_comm]

/-- Witness for C6_linear_roundtrip at width 3, value 10. -/
theorem C6_linear_roundtrip_witness :
    (binCodec.default 3).decode ((binCodec.default 3).encode 10) ≤ 10 ∧
    10 < (binCodec.default 3).decode ((binCodec.default 3).encode 10) + 3 :=
  C6_linear_roundtrip 3 10 (by norm_num) (by norm_num [uintW])

/-- Claim C7: linear construction fails exactly for width 0 and otherwise
yields a ready histogram over a fresh bin list; logarithmic construction
fails exactly for bases below 2 and otherwise yields a ready histogram. -/
theorem C7_constructor_validation (w b : Nat) :
    ((∃ hst, New w = Except.ok hst) ↔ w ≠ 0) ∧
    ((New w = Except.error ()) ↔ w = 0) ∧
    (w ≠ 0 → New w = Except.ok ⟨binCodec.default w, newBinList⟩) ∧
    ((∃ hst, NewExp b = Except.ok hst) ↔ 2 ≤ b) ∧
    ((NewExp b = Except.error ()) ↔ b < 2) ∧
    (2 ≤ b → NewExp b = Except.ok ⟨binCodec.exp b, newBinList⟩) := by
  unfold New NewExp
  by_cases h1 : w = 0 <;> by_cases h2 : b < 2 <;> simp [h1, h2] <;> omega

/-- Witness for C7_constructor_validation at valid parameters. -/
theorem C7_constructor_validation_witness :
    New 2 = Except.ok ⟨binCodec.default 2, newBinList⟩ ∧
    NewExp 2 = Except.ok ⟨binCodec.exp 2, newBinList⟩ :=
  ⟨(C7_constructor_validation 2 2).2.2.1 (by norm_num),
   (C7_constructor_validation 2 2).2.2.2.2.2 (by norm_num)⟩

/-- Claim C8: every bin list reachable from a fresh list by `update` calls
has a strictly ascending chain with a cursor that is nil or a member of the
chain, and any further `update` (which never aborts there) preserves this. -/
theorem C8_chain_invariant (ops : List (Nat × Nat)) :
    ∃ l, runUpdates ops = some l ∧
      List.Pairwise (· < ·) (chainKeys l.chain) ∧ cursorOK l ∧
      ∀ v f, ∃ l2, l.update v f = some l2 ∧
        List.Pairwise (· < ·) (chainKeys l2.chain) ∧ cursorOK l2 := by
  obtain ⟨l, h1, hw, -, -⟩ := foldl_update_spec ops newBinList wf_newBinList
  refine ⟨l, h1, hw.1, hw.2.1, fun v f => ?_⟩
  obtain ⟨l2, h2, hw2, -, -, -, -⟩ := update_spec l hw v f
  exact ⟨l2, h2, hw2.1, hw2.2.1⟩

/-- Claim C9: `update(i, i*i)` for `i = 1..5` on a fresh list yields the
five-bin state; iterating it with the width-1 linear codec passes the
cumulative frequencies-before-bin 0, 1, 5, 14, 30, the decoded values
1..5 and the pRank values 0, 1/55*100, 5/55*100, 14/55*100, 30/55*100, and
after the five positions `done()` is true. -/
theorem C9_iteration_trace :
    runUpdates [(1, 1), (2, 4), (3, 9), (4, 16), (5, 25)] = some listC9 ∧
    iterTrace 6 (newIter listC9 (binCodec.default 1)) =
      [(0, some 1, some (FVal.fin 0), false),
       (1, some 2, some (FVal.fin (1 / 55 * 100)), false),
       (5, some 3, some (FVal.fin (5 / 55 * 100)), false),
       (14, some 4, some (FVal.fin (14 / 55 * 100)), false),
       (30, some 5, some (FVal.fin (30 / 55 * 100)), false),
       (55, none, some (FVal.fin 100), true)] := by
  constructor
  · decide
  · norm_num [iterTrace, newIter, listC9, binsC9, BinIter.Next, BinIter.PRank,
      BinIter.Percentile, BinIter.Done, pRankVal, uintW, binCodec.decode, hBin.update]

/-- Claim C10: an iterator created over a bin list whose total frequency is
zero evaluates `pRank()` as 0/0 and returns NaN (not 0 and not an error),
and when the list is moreover empty (for example a never-updated histogram)
`done()` is already true at creation. -/
theorem C10_empty_prank_nan (l : hBinList) (c : binCodec) (h : l.totalFreq = 0) :
    (newIter l c).PRank = some FVal.nan ∧ (l.chain = [] → (newIter l c).Done = true) := by
  constructor
  · simp [newIter, BinIter.PRank, pRankVal, h]
  · intro hc
    simp [newIter, BinIter.Done, hc]

/-- Witness for C10_empty_prank_nan at a fresh histogram's iterator. -/
theorem C10_empty_prank_nan_witness :
    (newIter newBinList (binCodec.default 1)).PRank = some FVal.nan ∧
    (newIter newBinList (binCodec.default 1)).Done = true :=
  ⟨(C10_empty_prank_nan newBinList (binCodec.default 1) rfl).1,
   (C10_empty_prank_nan newBinList (binCodec.default 1) rfl).2 rfl⟩
